import Mathlib

/-!
Verification of the keyword-based extractive summarizer from the notebook
"Text Summarization (Basic Approach)".

The embedding models the four core steps of the notebook:

* sentence scoring (`sent_score`, `sent_len`, `sentence_scores`) — the loop
  that, for each processed sentence, sums `log (1 / importance)` over the
  Yake keywords occurring as substrings of the sentence and divides by the
  whitespace-token count of the sentence;
* sentence selection (`top_sentences`) — a stable sort of the per-sentence
  score table by score descending, a Python slice of the first
  `ceil(summary_size * num_sentences)` entries, an ascending re-sort of the
  surviving indices, and the mandatory inclusion of index 0;
* summary assembly (`assemble`) — mapping the selected indices back to the
  stripped original sentences;
* the whole pipeline (`summarize`).

Keyword importances (floats in the source) are modelled as rationals, the
log-transformed scores as real numbers, sentence text as lists of
characters.  Python runtime failures (ZeroDivisionError from a zero-token
sentence, IndexError from indexing an empty sentence list) are modelled by
the `Except` monad.
-/

/-- Runtime outcomes of the pipeline.  The constructors `zeroDivisionError`
and `indexError` are the Python exceptions the notebook code itself can
raise.  The constructors `emptyDocument` and `invalidParameter` are modelled
from the spec: its §7 error taxonomy names them, but no line of the notebook
produces them; they exist here so that statements about that taxonomy can be
written down. -/
inductive PyErr where
  | zeroDivisionError
  | indexError
  | emptyDocument
  | invalidParameter
deriving DecidableEq

/-- Python str.split() with no argument: split on runs of whitespace and
drop empty fragments. -/
def pyTokens (s : List Char) : List (List Char) :=
  (s.splitOnP (fun c => c.isWhitespace)).filter (fun t => !t.isEmpty)

/-- Python str.strip(): drop leading and trailing whitespace. -/
def pyStrip (s : List Char) : List Char :=
  ((s.dropWhile (fun c => c.isWhitespace)).reverse.dropWhile
    (fun c => c.isWhitespace)).reverse

/-- Python list slicing lst[:k] for an integer k, including the negative
case, where lst[:k] keeps all but the last |k| elements. -/
def pyTake {α : Type} (l : List α) (k : ℤ) : List α :=
  l.take (if 0 ≤ k then k.toNat else ((l.length : ℤ) + k).toNat)

/-- Token count of a processed sentence: len(sent.split()) in the source. -/
def sent_len (sent : List Char) : ℕ :=
  (pyTokens sent).length

/-- Accumulator loop of the scorer, from the notebook cell defining
sentence_scores: starting from 0.0, for each (keyword, score) pair skip it
if score == 0, otherwise add log(1 / score) whenever the keyword occurs as a
substring of the processed sentence. -/
noncomputable def sent_score (keywords : List (List Char × ℚ)) (sent : List Char) : ℝ :=
  keywords.foldl
    (fun acc kw =>
      if kw.2 = 0 then acc
      else if kw.1 <:+: sent then acc + Real.log (1 / (kw.2 : ℝ)) else acc)
    0

/-- Scoring loop over the enumerated processed sentences, starting at index
sid.  Each sentence contributes (sid, sent_score / sent_len); a zero-token
sentence makes the division raise ZeroDivisionError, aborting the run at the
first such sentence exactly as the Python loop does. -/
noncomputable def scoreFrom (keywords : List (List Char × ℚ)) (sid : ℕ) :
    List (List Char) → Except PyErr (List (ℕ × ℝ))
  | [] => .ok []
  | sent :: rest =>
    if sent_len sent = 0 then .error .zeroDivisionError
    else
      match scoreFrom keywords (sid + 1) rest with
      | .error e => .error e
      | .ok others =>
          .ok ((sid, sent_score keywords sent / (sent_len sent : ℝ)) :: others)

/-- Score table of the notebook: for sid, sent in enumerate(sentences_processed),
sentence_scores[sid] = sent_score / sent_len. -/
noncomputable def sentence_scores (keywords : List (List Char × ℚ))
    (sentences_processed : List (List Char)) : Except PyErr (List (ℕ × ℝ)) :=
  scoreFrom keywords 0 sentences_processed

/-- Sentence selection of the notebook, generic over the score type: sort
the (index, score) table by score descending (Python sorted is stable, as is
insertion sort with a total preorder), slice off the first
ceil(summary_size * num_sentences) entries, keep only the indices, re-sort
them ascending, and prepend index 0 when it is absent. -/
def top_sentences {α : Type} [LinearOrder α] (sentence_scores : List (ℕ × α))
    (summary_size : ℚ) (num_sentences : ℕ) : List ℕ :=
  let sorted := List.insertionSort (fun a b => b.2 ≤ a.2) sentence_scores
  let taken := pyTake sorted ⌈summary_size * (num_sentences : ℚ)⌉
  let idxs := taken.map Prod.fst
  let idxs2 := List.insertionSort (fun a b => a ≤ b) idxs
  if 0 ∈ idxs2 then idxs2 else 0 :: idxs2

/-- Summary generation loop of the notebook: print(sentences[idx].strip())
for each selected index; indexing outside the original sentence list raises
IndexError. -/
def assemble (sentences : List (List Char)) : List ℕ → Except PyErr (List (List Char))
  | [] => .ok []
  | idx :: rest =>
    match sentences.get? idx with
    | none => .error .indexError
    | some s =>
      match assemble sentences rest with
      | .error e => .error e
      | .ok others => .ok (pyStrip s :: others)

/-- Whole pipeline on already-segmented input: sort the Yake keywords by
score ascending, score every processed sentence, select, and assemble the
summary from the original sentences. -/
noncomputable def summarize (sentences sentences_processed : List (List Char))
    (yake_keywords : List (List Char × ℚ)) (summary_size : ℚ) :
    Except PyErr (List (List Char)) :=
  let yake_keywords_sorted := List.insertionSort (fun a b => a.2 ≤ b.2) yake_keywords
  match sentence_scores yake_keywords_sorted sentences_processed with
  | .error e => .error e
  | .ok scores =>
      assemble sentences (top_sentences scores summary_size sentences.length)

/-- Score formula as the specification words it: the sum, over the keywords
of strictly positive importance occurring as substrings of the sentence, of
log(1 / importance), divided by the whitespace-token count. -/
noncomputable def specScore (keywords : List (List Char × ℚ)) (sent : List Char) : ℝ :=
  (((keywords.filter (fun k => decide (0 < k.2 ∧ k.1 <:+: sent))).map
    (fun k => Real.log (1 / (k.2 : ℝ)))).sum) / (sent_len sent : ℝ)

example : sent_len "first one here".toList = 3 := by decide
example : pyTokens "  a  bc ".toList = ["a".toList, "bc".toList] := by decide
example : pyStrip "  hi ".toList = "hi".toList := by decide

/-- C3 counterexample: on an empty document the notebook performs no input
validation.  The selector still runs and produces the selection [0], and the
pipeline fails only at summary assembly with a Python IndexError — not with
an EmptyDocument error, and not before scoring/selection work. -/
theorem empty_document_counterexample :
    summarize [] [] [] (1/4) = .error .indexError ∧
    top_sentences ([] : List (ℕ × ℝ)) (1/4) 0 = [0] ∧
    summarize [] [] [] (1/4) ≠ .error .emptyDocument := by
  refine ⟨?_, ?_, ?_⟩
  · simp [summarize, sentence_scores, scoreFrom, top_sentences, pyTake,
      List.insertionSort, assemble]
  · simp [top_sentences, pyTake, List.insertionSort]
  · simp [summarize, sentence_scores, scoreFrom, top_sentences, pyTake,
      List.insertionSort, assemble]

/-- C3 amended: for a document with zero sentences, the pipeline performs no
validation and no scoring, the selector returns [0], and the run aborts at
assembly with an IndexError, whatever the keywords and the summary fraction
are. -/
theorem empty_document_behavior (yake_keywords : List (List Char × ℚ))
    (summary_size : ℚ) :
    summarize [] [] yake_keywords summary_size = .error .indexError := by
  simp [summarize, sentence_scores, scoreFrom, top_sentences, pyTake,
    List.insertionSort, assemble]

/-- C4 counterexample: with summaryFraction = 0 and a one-sentence document
the pipeline returns the first sentence as summary instead of failing with
an InvalidParameter error. -/
theorem invalid_parameter_counterexample :
    summarize ["one sentence".toList] ["one sentence".toList] [] 0 =
      .ok ["one sentence".toList] ∧
    summarize ["one sentence".toList] ["one sentence".toList] [] 0 ≠
      .error .invalidParameter := by
  constructor
  · simp +decide [summarize, sentence_scores, scoreFrom, top_sentences, pyTake,
      List.insertionSort, List.orderedInsert, assemble]
  · simp +decide [summarize, sentence_scores, scoreFrom, top_sentences, pyTake,
      List.insertionSort, List.orderedInsert, assemble]

/-- C4 amended: the selector performs no validation of the summary fraction;
with summaryFraction = 0 it slices zero entries off the ranking and then
force-includes index 0, so the selection is [0] for every score table and
sentence count. -/
theorem zero_fraction_selection {α : Type} [LinearOrder α]
    (scores : List (ℕ × α)) (n : ℕ) :
    top_sentences scores 0 n = [0] := by
  simp [top_sentences, pyTake, List.insertionSort]

/-- C9: the pipeline is a pure function, hence deterministic — identical
sentence lists, keyword lists and summary fraction give identical summaries,
and identical score tables give identical selections (the tie-break being
the fixed stable insertion sort). -/
theorem pipeline_deterministic
    (s₁ s₂ p₁ p₂ : List (List Char)) (k₁ k₂ : List (List Char × ℚ)) (f₁ f₂ : ℚ)
    (hs : s₁ = s₂) (hp : p₁ = p₂) (hk : k₁ = k₂) (hf : f₁ = f₂) :
    summarize s₁ p₁ k₁ f₁ = summarize s₂ p₂ k₂ f₂ ∧
    ∀ (sc₁ sc₂ : List (ℕ × ℝ)) (n₁ n₂ : ℕ), sc₁ = sc₂ → n₁ = n₂ →
      top_sentences sc₁ f₁ n₁ = top_sentences sc₂ f₂ n₂ := by
  subst hs; subst hp; subst hk; subst hf
  exact ⟨rfl, fun sc₁ sc₂ n₁ n₂ h1 h2 => by rw [h1, h2]⟩

/-- C9 witness: the determinism theorem applied at a concrete input. -/
theorem pipeline_deterministic_witness :
    summarize ["a b".toList] ["a b".toList] [] (1/4) =
      summarize ["a b".toList] ["a b".toList] [] (1/4) ∧
    ∀ (sc₁ sc₂ : List (ℕ × ℝ)) (n₁ n₂ : ℕ), sc₁ = sc₂ → n₁ = n₂ →
      top_sentences sc₁ (1/4) n₁ = top_sentences sc₂ (1/4) n₂ :=
  pipeline_deterministic _ _ _ _ _ _ _ _ rfl rfl rfl rfl

/-- Helper: the scorer's accumulator loop, started from any value a, adds to
a the sum of log(1 / importance) over the keywords of strictly positive
importance occurring in the sentence (each list entry counted once). -/
theorem sent_score_foldl_eq (keywords : List (List Char × ℚ)) (sent : List Char)
    (hpos : ∀ k ∈ keywords, 0 ≤ k.2) (a : ℝ) :
    keywords.foldl
      (fun acc kw =>
        if kw.2 = 0 then acc
        else if kw.1 <:+: sent then acc + Real.log (1 / (kw.2 : ℝ)) else acc) a
    = a + ((keywords.filter (fun k => decide (0 < k.2 ∧ k.1 <:+: sent))).map
        (fun k => Real.log (1 / (k.2 : ℝ)))).sum := by
  induction keywords generalizing a with
  | nil => simp
  | cons k ks ih =>
    have hk : 0 ≤ k.2 := hpos k (List.mem_cons_self _ _)
    have hks : ∀ x ∈ ks, 0 ≤ x.2 := fun x hx => hpos x (List.mem_cons_of_mem _ hx)
    rcases eq_or_lt_of_le hk with h0 | hpos'
    · have hcond : ¬ (0 < k.2 ∧ k.1 <:+: sent) := by
        rintro ⟨h1, -⟩
        exact absurd h0 (ne_of_lt h1)
      simp only [List.foldl_cons, List.filter_cons, decide_eq_true_eq]
      rw [if_pos h0.symm, if_neg hcond]
      exact ih hks a
    · have hne : ¬ k.2 = 0 := ne_of_gt hpos'
      by_cases hin : k.1 <:+: sent
      · have hcond : (0 < k.2 ∧ k.1 <:+: sent) := ⟨hpos', hin⟩
        simp only [List.foldl_cons, List.filter_cons, decide_eq_true_eq]
        rw [if_neg hne, if_pos hin, if_pos hcond, List.map_cons, List.sum_cons,
          ih hks]
        ring
      · have hcond : ¬ (0 < k.2 ∧ k.1 <:+: sent) := by
          rintro ⟨-, h2⟩; exact hin h2
        simp only [List.foldl_cons, List.filter_cons, decide_eq_true_eq]
        rw [if_neg hne, if_neg hin, if_neg hcond]
        exact ih hks a

/-- Helper: closed form of the per-sentence accumulator. -/
theorem sent_score_eq_sum (keywords : List (List Char × ℚ)) (sent : List Char)
    (hpos : ∀ k ∈ keywords, 0 ≤ k.2) :
    sent_score keywords sent =
      ((keywords.filter (fun k => decide (0 < k.2 ∧ k.1 <:+: sent))).map
        (fun k => Real.log (1 / (k.2 : ℝ)))).sum := by
  have := sent_score_foldl_eq keywords sent hpos 0
  simpa [sent_score] using this

/-- Helper: the scoring loop succeeds on sentences with nonzero token counts
and returns the enumerated normalized scores, starting at any index. -/
theorem scoreFrom_ok (keywords : List (List Char × ℚ)) (sents : List (List Char))
    (sid : ℕ) (htok : ∀ s ∈ sents, sent_len s ≠ 0) :
    scoreFrom keywords sid sents =
      .ok ((sents.enumFrom sid).map
        (fun p => (p.1, sent_score keywords p.2 / (sent_len p.2 : ℝ)))) := by
  induction sents generalizing sid with
  | nil => simp [scoreFrom]
  | cons s rest ih =>
    have hs : sent_len s ≠ 0 := htok s (List.mem_cons_self _ _)
    rw [scoreFrom, if_neg hs, ih sid.succ (fun x hx => htok x (List.mem_cons_of_mem _ hx))]
    simp [List.enumFrom]

/-- C1: for keyword tables with nonnegative importances (the data-model
invariant) and sentences with at least one whitespace token, the scorer
produces exactly the spec formula: score[i] is the sum of log(1/importance)
over the positive-importance keywords occurring as substrings of sentence i,
divided by sentence i's token count; zero-importance keywords contribute
nothing. -/
theorem scorer_matches_spec (keywords : List (List Char × ℚ))
    (sents : List (List Char))
    (hpos : ∀ k ∈ keywords, 0 ≤ k.2)
    (htok : ∀ s ∈ sents, sent_len s ≠ 0) :
    sentence_scores keywords sents =
      .ok (sents.enum.map (fun p => (p.1, specScore keywords p.2))) := by
  rw [sentence_scores, scoreFrom_ok keywords sents 0 htok]
  refine congrArg Except.ok ?_
  have henum : sents.enum = sents.enumFrom 0 := rfl
  rw [← henum]
  refine List.map_congr_left ?_
  intro p _
  rw [specScore, sent_score_eq_sum _ _ hpos]

/-- C1 witness: the scorer agrees with the spec formula on a concrete
keyword table and sentence. -/
theorem scorer_matches_spec_witness :
    (∀ k ∈ [("beta".toList, (1:ℚ)/2)], 0 ≤ k.2) ∧
    (∀ s ∈ ["beta x".toList], sent_len s ≠ 0) ∧
    sentence_scores [("beta".toList, (1:ℚ)/2)] ["beta x".toList] =
      .ok ((["beta x".toList]).enum.map
        (fun p => (p.1, specScore [("beta".toList, (1:ℚ)/2)] p.2))) :=
  ⟨by norm_num, by decide,
    scorer_matches_spec _ _ (by norm_num) (by decide)⟩

/-- Helper: the accumulator loop only looks at whether each keyword occurs,
so sentences with the same containment profile get the same accumulator,
from any starting value. -/
theorem sent_score_foldl_congr (keywords : List (List Char × ℚ)) (s t : List Char)
    (hiff : ∀ k ∈ keywords, (k.1 <:+: s ↔ k.1 <:+: t)) (a : ℝ) :
    keywords.foldl
      (fun acc kw => if kw.2 = 0 then acc
        else if kw.1 <:+: s then acc + Real.log (1 / (kw.2 : ℝ)) else acc) a =
    keywords.foldl
      (fun acc kw => if kw.2 = 0 then acc
        else if kw.1 <:+: t then acc + Real.log (1 / (kw.2 : ℝ)) else acc) a := by
  induction keywords generalizing a with
  | nil => rfl
  | cons k ks ih =>
    have hk : (k.1 <:+: s ↔ k.1 <:+: t) := hiff k (List.mem_cons_self _ _)
    have hks : ∀ x ∈ ks, (x.1 <:+: s ↔ x.1 <:+: t) :=
      fun x hx => hiff x (List.mem_cons_of_mem _ hx)
    simp only [List.foldl_cons]
    by_cases h0 : k.2 = 0
    · rw [if_pos h0, if_pos h0]
      exact ih hks _
    · by_cases hin : k.1 <:+: s
      · rw [if_neg h0, if_neg h0, if_pos hin, if_pos (hk.mp hin)]
        exact ih hks _
      · rw [if_neg h0, if_neg h0, if_neg hin, if_neg (fun hc => hin (hk.mpr hc))]
        exact ih hks _

/-- C10: every listed keyword of positive importance contributes its
log(1/importance) to the accumulator exactly once when it occurs as a
substring (the accumulator equals a sum with one summand per occurring
keyword entry), and the accumulator depends on a sentence only through the
containment profile of the keywords, never through how often a keyword
occurs. -/
theorem keyword_counted_once (keywords : List (List Char × ℚ)) (s : List Char)
    (hpos : ∀ k ∈ keywords, 0 ≤ k.2) :
    sent_score keywords s =
      ((keywords.filter (fun k => decide (0 < k.2 ∧ k.1 <:+: s))).map
        (fun k => Real.log (1 / (k.2 : ℝ)))).sum ∧
    ∀ t : List Char, (∀ k ∈ keywords, (k.1 <:+: s ↔ k.1 <:+: t)) →
      sent_score keywords s = sent_score keywords t := by
  refine ⟨sent_score_eq_sum _ _ hpos, ?_⟩
  intro t hiff
  simp only [sent_score]
  exact sent_score_foldl_congr keywords s t hiff 0

/-- C10 witness: a keyword occurring twice in one sentence and once in
another contributes identically to both accumulators. -/
theorem keyword_counted_once_witness :
    (∀ k ∈ [("alpha".toList, (1:ℚ)/2)], 0 ≤ k.2) ∧
    sent_score [("alpha".toList, (1:ℚ)/2)] "alpha alpha y".toList =
      (([("alpha".toList, (1:ℚ)/2)].filter
        (fun k => decide (0 < k.2 ∧ k.1 <:+: "alpha alpha y".toList))).map
        (fun k => Real.log (1 / (k.2 : ℝ)))).sum ∧
    sent_score [("alpha".toList, (1:ℚ)/2)] "alpha alpha y".toList =
      sent_score [("alpha".toList, (1:ℚ)/2)] "alpha z".toList :=
  ⟨by norm_num,
   (keyword_counted_once _ _ (by norm_num)).1,
   (keyword_counted_once _ _ (by norm_num)).2 _ (by decide)⟩

/-- Helper: the scoring loop errors with ZeroDivisionError as soon as some
sentence has zero whitespace tokens. -/
theorem scoreFrom_error (keywords : List (List Char × ℚ)) (sents : List (List Char))
    (sid : ℕ) (h : ∃ s ∈ sents, sent_len s = 0) :
    scoreFrom keywords sid sents = .error .zeroDivisionError := by
  induction sents generalizing sid with
  | nil => simp at h
  | cons s rest ih =>
    rw [scoreFrom]
    by_cases hs : sent_len s = 0
    · rw [if_pos hs]
    · rw [if_neg hs]
      obtain ⟨x, hx, hx0⟩ := h
      rcases List.mem_cons.mp hx with rfl | hxr
      · exact absurd hx0 hs
      · rw [ih (sid + 1) ⟨x, hxr, hx0⟩]

/-- C6: the sentence scorer is total — it returns a score table — on every
input whose sentences all have at least one whitespace token; and on any
input containing a zero-token sentence the unguarded division makes the
scorer fail with a ZeroDivisionError. -/
theorem scorer_totality :
    (∀ (keywords : List (List Char × ℚ)) (sents : List (List Char)),
        (∀ s ∈ sents, sent_len s ≠ 0) →
        ∃ l, sentence_scores keywords sents = .ok l) ∧
    (∀ (keywords : List (List Char × ℚ)) (sents : List (List Char)),
        (∃ s ∈ sents, sent_len s = 0) →
        sentence_scores keywords sents = .error .zeroDivisionError) := by
  constructor
  · intro keywords sents htok
    exact ⟨_, scoreFrom_ok keywords sents 0 htok⟩
  · intro keywords sents h
    exact scoreFrom_error keywords sents 0 h

/-- C6 witness: the scorer succeeds on a one-token sentence and fails with
ZeroDivisionError on an empty (zero-token) sentence. -/
theorem scorer_totality_witness :
    (∀ s ∈ ["ab".toList], sent_len s ≠ 0) ∧
    (∃ l, sentence_scores [] ["ab".toList] = .ok l) ∧
    (∃ s ∈ ([[]] : List (List Char)), sent_len s = 0) ∧
    sentence_scores [] [([] : List Char)] = .error .zeroDivisionError :=
  ⟨by decide, scorer_totality.1 [] _ (by decide), ⟨[], by decide⟩,
   scorer_totality.2 [] _ ⟨[], by decide⟩⟩

/-- Helper: shape of the selection.  Under the pipeline invariant that the
score table is keyed by 0..n-1 in order, the selection is an ascending
duplicate-free list s of indices below n with 0 prepended when absent, and s
has exactly ceil(summary_size * n) entries whenever that ceiling lies in
[0, n]. -/
theorem top_sentences_shape {α : Type} [LinearOrder α]
    (scores : List (ℕ × α)) (summary_size : ℚ) (n : ℕ)
    (h : scores.map Prod.fst = List.range n) :
    ∃ s : List ℕ,
      top_sentences scores summary_size n = (if 0 ∈ s then s else 0 :: s) ∧
      s.Nodup ∧ List.Sorted (· ≤ ·) s ∧ (∀ x ∈ s, x < n) ∧
      (0 ≤ ⌈summary_size * (n : ℚ)⌉ →
        ⌈summary_size * (n : ℚ)⌉.toNat ≤ n →
        s.length = ⌈summary_size * (n : ℚ)⌉.toNat) := by
  simp only [top_sentences]
  set sorted := List.insertionSort (fun a b : ℕ × α => b.2 ≤ a.2) scores with hsorteddef
  set taken := pyTake sorted ⌈summary_size * (n : ℚ)⌉ with htakendef
  set idxs := taken.map Prod.fst with hidxsdef
  set idxs2 := List.insertionSort (fun a b : ℕ => a ≤ b) idxs with hidxs2def
  have hperm1 : (sorted.map Prod.fst).Perm (List.range n) := by
    rw [← h]
    exact (List.perm_insertionSort _ _).map _
  have hnd1 : (sorted.map Prod.fst).Nodup :=
    hperm1.symm.nodup (List.nodup_range n)
  have hsub : idxs.Sublist (sorted.map Prod.fst) := by
    rw [hidxsdef, htakendef, pyTake]
    exact (List.take_sublist _ _).map _
  have hndidxs : idxs.Nodup := hsub.nodup hnd1
  have hperm2 : idxs2.Perm idxs := List.perm_insertionSort _ _
  refine ⟨idxs2, rfl, hperm2.symm.nodup hndidxs, List.sorted_insertionSort _ _, ?_, ?_⟩
  · intro x hx
    have hx1 : x ∈ idxs := hperm2.mem_iff.mp hx
    have hx2 : x ∈ sorted.map Prod.fst := hsub.subset hx1
    exact List.mem_range.mp (hperm1.mem_iff.mp hx2)
  · intro hk0 hkn
    have hlen1 : sorted.length = n := by
      rw [hsorteddef, List.length_insertionSort]
      have := congrArg List.length h
      simpa using this
    have hlen2 : taken.length = ⌈summary_size * (n : ℚ)⌉.toNat := by
      rw [htakendef, pyTake, if_pos hk0, List.length_take, hlen1]
      exact min_eq_left hkn
    calc idxs2.length = idxs.length := List.length_insertionSort _ _
      _ = taken.length := List.length_map _ _
      _ = _ := hlen2

/-- C2: for every valid input keyed 0..n-1, the selection is sorted in
strictly ascending order, duplicate-free, and contains index 0. -/
theorem selection_sorted_nodup_zero {α : Type} [LinearOrder α]
    (scores : List (ℕ × α)) (summary_size : ℚ) (n : ℕ)
    (h : scores.map Prod.fst = List.range n)
    (hn : 1 ≤ n) (hf0 : 0 < summary_size) (hf1 : summary_size ≤ 1) :
    List.Sorted (· < ·) (top_sentences scores summary_size n) ∧
    (top_sentences scores summary_size n).Nodup ∧
    0 ∈ top_sentences scores summary_size n := by
  obtain ⟨s, hEq, hnd, hsorted, hlt, -⟩ := top_sentences_shape scores summary_size n h
  rw [hEq]
  by_cases h0 : 0 ∈ s
  · rw [if_pos h0]
    exact ⟨hsorted.lt_of_le hnd, hnd, h0⟩
  · rw [if_neg h0]
    have hslt : List.Sorted (· < ·) s := hsorted.lt_of_le hnd
    have hpos : ∀ b ∈ s, 0 < b := fun b hb =>
      Nat.pos_of_ne_zero (fun hb0 => h0 (hb0 ▸ hb))
    have hsorted0 : List.Sorted (· < ·) (0 :: s) :=
      List.sorted_cons.mpr ⟨hpos, hslt⟩
    exact ⟨hsorted0, List.nodup_cons.mpr ⟨h0, hnd⟩, List.mem_cons_self _ _⟩

/-- C2 witness: the selection invariants at a concrete valid input. -/
theorem selection_sorted_nodup_zero_witness :
    ([((0:ℕ), (1:ℚ)), (1, 2)].map Prod.fst = List.range 2) ∧
    (1 ≤ 2) ∧ ((0:ℚ) < 1/2) ∧ ((1/2:ℚ) ≤ 1) ∧
    (List.Sorted (· < ·) (top_sentences [((0:ℕ), (1:ℚ)), (1, 2)] (1/2) 2) ∧
     (top_sentences [((0:ℕ), (1:ℚ)), (1, 2)] (1/2) 2).Nodup ∧
     0 ∈ top_sentences [((0:ℕ), (1:ℚ)), (1, 2)] (1/2) 2) :=
  ⟨rfl, by omega, by norm_num, by norm_num,
   selection_sorted_nodup_zero _ _ _ rfl (by omega) (by norm_num) (by norm_num)⟩

/-- Helper: a duplicate-free list of naturals below n that avoids 0 has
fewer than n entries. -/
theorem length_lt_of_nodup_bounded (s : List ℕ) (n : ℕ) (hnd : s.Nodup)
    (hlt : ∀ x ∈ s, x < n) (h0 : 0 ∉ s) (hn : 1 ≤ n) : s.length < n := by
  have hcard : s.length = s.toFinset.card := (List.toFinset_card_of_nodup hnd).symm
  have hsub : s.toFinset ⊆ (Finset.range n).erase 0 := by
    intro x hx
    have hxs : x ∈ s := List.mem_toFinset.mp hx
    exact Finset.mem_erase.mpr
      ⟨fun hx0 => h0 (hx0 ▸ hxs), Finset.mem_range.mpr (hlt x hxs)⟩
  have hle := Finset.card_le_card hsub
  rw [Finset.card_erase_of_mem (Finset.mem_range.mpr hn), Finset.card_range] at hle
  omega

/-- Helper: for a valid fraction and sentence count the slice bound
ceil(summary_size * n) lies between 1 and n. -/
theorem ceil_bounds (summary_size : ℚ) (n : ℕ) (hn : 1 ≤ n)
    (hf0 : 0 < summary_size) (hf1 : summary_size ≤ 1) :
    1 ≤ ⌈summary_size * (n : ℚ)⌉ ∧ ⌈summary_size * (n : ℚ)⌉ ≤ (n : ℤ) := by
  constructor
  · have hpos : (0:ℚ) < summary_size * n := by
      apply mul_pos hf0
      exact_mod_cast Nat.pos_of_ne_zero (by omega)
    exact Int.ceil_pos.mpr hpos
  · apply Int.ceil_le.mpr
    push_cast
    calc summary_size * n ≤ 1 * n := by
          apply mul_le_mul_of_nonneg_right hf1 (by positivity)
      _ = n := one_mul _

/-- C5: for every valid input the selection length is at least
ceil(summaryFraction * totalSentenceCount), hence at least 1, and at most
totalSentenceCount. -/
theorem selection_length_bounds {α : Type} [LinearOrder α]
    (scores : List (ℕ × α)) (summary_size : ℚ) (n : ℕ)
    (h : scores.map Prod.fst = List.range n)
    (hn : 1 ≤ n) (hf0 : 0 < summary_size) (hf1 : summary_size ≤ 1) :
    ⌈summary_size * (n : ℚ)⌉.toNat ≤ (top_sentences scores summary_size n).length ∧
    1 ≤ (top_sentences scores summary_size n).length ∧
    (top_sentences scores summary_size n).length ≤ n := by
  obtain ⟨hk1, hkn⟩ := ceil_bounds summary_size n hn hf0 hf1
  have hk0 : 0 ≤ ⌈summary_size * (n : ℚ)⌉ := by omega
  have hknn : ⌈summary_size * (n : ℚ)⌉.toNat ≤ n := Int.toNat_le.mpr hkn
  obtain ⟨s, hEq, hnd, _, hlt, hlen⟩ := top_sentences_shape scores summary_size n h
  have hlens : s.length = ⌈summary_size * (n : ℚ)⌉.toNat := hlen hk0 hknn
  rw [hEq]
  by_cases h0 : 0 ∈ s
  · rw [if_pos h0]
    refine ⟨le_of_eq hlens.symm, ?_, ?_⟩
    · omega
    · omega
  · rw [if_neg h0]
    have hsmall : s.length < n := length_lt_of_nodup_bounded s n hnd hlt h0 hn
    simp only [List.length_cons]
    refine ⟨by omega, by omega, by omega⟩

/-- C5 witness: the length bounds at a concrete valid input. -/
theorem selection_length_bounds_witness :
    ([((0:ℕ), (2:ℚ)), (1, 1), (2, 3)].map Prod.fst = List.range 3) ∧
    (1 ≤ 3) ∧ ((0:ℚ) < 1/3) ∧ ((1/3:ℚ) ≤ 1) ∧
    (⌈(1/3:ℚ) * ((3:ℕ) : ℚ)⌉.toNat ≤
      (top_sentences [((0:ℕ), (2:ℚ)), (1, 1), (2, 3)] (1/3) 3).length ∧
     1 ≤ (top_sentences [((0:ℕ), (2:ℚ)), (1, 1), (2, 3)] (1/3) 3).length ∧
     (top_sentences [((0:ℕ), (2:ℚ)), (1, 1), (2, 3)] (1/3) 3).length ≤ 3) :=
  ⟨rfl, by omega, by norm_num, by norm_num,
   selection_length_bounds _ _ _ rfl (by omega) (by norm_num) (by norm_num)⟩

/-- Helper: the selection depends on the summary fraction only through the
ceiling of summary_size * num_sentences. -/
theorem top_sentences_ceil_congr {α : Type} [LinearOrder α]
    (scores : List (ℕ × α)) (f₁ f₂ : ℚ) (n : ℕ)
    (hc : ⌈f₁ * (n : ℚ)⌉ = ⌈f₂ * (n : ℚ)⌉) :
    top_sentences scores f₁ n = top_sentences scores f₂ n := by
  simp only [top_sentences]
  rw [hc]

/-- C7: with scores, sentence count and the (stable-sort) tie-break fixed,
increasing the summary fraction within (0,1] never decreases the selection
length. -/
theorem selection_length_monotone {α : Type} [LinearOrder α]
    (scores : List (ℕ × α)) (f₁ f₂ : ℚ) (n : ℕ)
    (h : scores.map Prod.fst = List.range n) (hn : 1 ≤ n)
    (hf0 : 0 < f₁) (h12 : f₁ ≤ f₂) (hf1 : f₂ ≤ 1) :
    (top_sentences scores f₁ n).length ≤ (top_sentences scores f₂ n).length := by
  have hkmono : ⌈f₁ * (n : ℚ)⌉ ≤ ⌈f₂ * (n : ℚ)⌉ :=
    Int.ceil_le_ceil (mul_le_mul_of_nonneg_right h12 (by positivity))
  rcases eq_or_lt_of_le hkmono with hceq | hklt
  · rw [top_sentences_ceil_congr scores f₁ f₂ n hceq]
  · obtain ⟨hk1a, -⟩ := ceil_bounds f₁ n hn hf0 (le_trans h12 hf1)
    obtain ⟨-, hk2b⟩ := ceil_bounds f₂ n hn (lt_of_lt_of_le hf0 h12) hf1
    have hk1n : ⌈f₁ * (n : ℚ)⌉.toNat ≤ n := by omega
    have hk2n : ⌈f₂ * (n : ℚ)⌉.toNat ≤ n := Int.toNat_le.mpr hk2b
    obtain ⟨s₁, hEq₁, -, -, -, hlen₁⟩ := top_sentences_shape scores f₁ n h
    obtain ⟨s₂, hEq₂, -, -, -, hlen₂⟩ := top_sentences_shape scores f₂ n h
    have hlens₁ : s₁.length = ⌈f₁ * (n : ℚ)⌉.toNat := hlen₁ (by omega) hk1n
    have hlens₂ : s₂.length = ⌈f₂ * (n : ℚ)⌉.toNat := hlen₂ (by omega) hk2n
    rw [hEq₁, hEq₂]
    by_cases h01 : 0 ∈ s₁ <;> by_cases h02 : 0 ∈ s₂ <;>
      simp only [if_pos, if_neg, h01, h02, if_true, if_false, List.length_cons] <;>
      omega

/-- C7 witness: selection-size monotonicity at a concrete pair of valid
fractions. -/
theorem selection_length_monotone_witness :
    ([((0:ℕ), (2:ℚ)), (1, 1), (2, 3)].map Prod.fst = List.range 3) ∧
    (1 ≤ 3) ∧ ((0:ℚ) < 1/3) ∧ ((1/3:ℚ) ≤ 2/3) ∧ ((2/3:ℚ) ≤ 1) ∧
    (top_sentences [((0:ℕ), (2:ℚ)), (1, 1), (2, 3)] (1/3) 3).length ≤
      (top_sentences [((0:ℕ), (2:ℚ)), (1, 1), (2, 3)] (2/3) 3).length :=
  ⟨rfl, by omega, by norm_num, by norm_num, by norm_num,
   selection_length_monotone _ _ _ _ rfl (by omega) (by norm_num) (by norm_num)
     (by norm_num)⟩

/-- C8, Scenario A: four sentences with keywords alpha (importance 0.01) and
beta (importance 0.5), where only sentence 2 contains either keyword.  The
scorer gives sentence 2 a strictly positive score and every other sentence
score 0, and with summaryFraction 1/4 (slice bound 1) the selection is
[0, 2]: top-scored sentence 2 plus the force-included first sentence. -/
theorem scenario_a :
    ∃ v : ℝ, 0 < v ∧
      sentence_scores
        [("alpha".toList, (1:ℚ)/100), ("beta".toList, (1:ℚ)/2)]
        ["first one here".toList, "second line text".toList,
         "alpha beta words".toList, "final row done".toList] =
        .ok [(0, 0), (1, 0), (2, v), (3, 0)] ∧
      top_sentences [((0:ℕ), (0:ℝ)), (1, 0), (2, v), (3, 0)] (1/4) 4 = [0, 2] := by
  have h100 : ¬ ((1:ℚ)/100 = 0) := by norm_num
  have h2 : ¬ ((1:ℚ)/2 = 0) := by norm_num
  have hv : (0:ℝ) < (Real.log 100 + Real.log 2)/3 := by
    have l1 : (0:ℝ) < Real.log 100 := Real.log_pos (by norm_num)
    have l2 : (0:ℝ) < Real.log 2 := Real.log_pos (by norm_num)
    have : (0:ℝ) < Real.log 100 + Real.log 2 := by linarith
    exact div_pos this (by norm_num)
  refine ⟨(Real.log 100 + Real.log 2)/3, hv, ?_, ?_⟩
  · have hs0 : sent_score [("alpha".toList, (1:ℚ)/100), ("beta".toList, (1:ℚ)/2)]
        "first one here".toList = 0 := by
      simp +decide [sent_score, h100, h2]
    have hs1 : sent_score [("alpha".toList, (1:ℚ)/100), ("beta".toList, (1:ℚ)/2)]
        "second line text".toList = 0 := by
      simp +decide [sent_score, h100, h2]
    have hs2 : sent_score [("alpha".toList, (1:ℚ)/100), ("beta".toList, (1:ℚ)/2)]
        "alpha beta words".toList = Real.log 100 + Real.log 2 := by
      simp +decide [sent_score, h100, h2]
    have hs3 : sent_score [("alpha".toList, (1:ℚ)/100), ("beta".toList, (1:ℚ)/2)]
        "final row done".toList = 0 := by
      simp +decide [sent_score, h100, h2]
    have hl0 : sent_len "first one here".toList = 3 := by decide
    have hl1 : sent_len "second line text".toList = 3 := by decide
    have hl2 : sent_len "alpha beta words".toList = 3 := by decide
    have hl3 : sent_len "final row done".toList = 3 := by decide
    rw [sentence_scores, scoreFrom_ok _ _ 0 (by decide)]
    simp only [List.enumFrom, List.map_cons, List.map_nil]
    rw [hs0, hs1, hs2, hs3, hl0, hl1, hl2, hl3]
    norm_num
  · have hnle : ¬ ((Real.log 100 + Real.log 2)/3 ≤ 0) := not_le.mpr hv
    have hceil : (⌈(1/4:ℚ) * ((4:ℕ) : ℚ)⌉ : ℤ) = 1 := by norm_num
    simp only [top_sentences, hceil]
    simp [pyTake, List.insertionSort, List.orderedInsert, hv.le, hnle]
